import Mathlib

/-!
Verification development for the service-perf-metric pipeline
(spm.py, src/extract.py, src/report.py, src/webapp.py).

The Python sources are shallowly embedded as executable Lean functions:
file contents become lists of lines (lists of characters), CSV artifacts
become lists of rows (lists of strings), Python ints become Int, and
fallible operations return Option or Except.  The embedding is ASCII-level:
the Unicode extensions of the Python character classes (regex digit/space
classes, str.strip, str.upper, re.IGNORECASE) are modelled on the ASCII
range, which covers every input treated in the theorems below.
-/

/- ===== Character helpers (ASCII models of the Python character classes) ===== -/

/-- ASCII decimal digit: models the regex digit class on ASCII input. -/
def isDigit (c : Char) : Bool := decide (48 ≤ c.toNat) && decide (c.toNat ≤ 57)

/-- ASCII whitespace: models the regex whitespace class and the set stripped by
Python str.strip on ASCII input: space, tab, newline, carriage return,
form feed, vertical tab. -/
def isSpace (c : Char) : Bool :=
  c == ' ' || c == '\t' || c == '\n' || c == '\r' || c == '\x0c' || c == '\x0b'

/-- ASCII lower-casing of one character (models Python case-insensitive
matching on the ASCII range). -/
def lowerChar (c : Char) : Char :=
  if 'A' ≤ c ∧ c ≤ 'Z' then Char.ofNat (c.toNat + 32) else c

/-- ASCII upper-casing of one character (models Python str.upper on ASCII). -/
def upperChar (c : Char) : Char :=
  if 'a' ≤ c ∧ c ≤ 'z' then Char.ofNat (c.toNat - 32) else c

/-- Python str.strip on a character list: drop ASCII whitespace on both ends. -/
def pyStripL (s : List Char) : List Char :=
  ((s.dropWhile isSpace).reverse.dropWhile isSpace).reverse

/-- Python str.strip on strings. -/
def pyStrip (s : String) : String := String.mk (pyStripL s.data)

/-- Python str.upper on strings (ASCII model). -/
def pyUpper (s : String) : String := String.mk (s.data.map upperChar)

/-- Numeric value of a digit string, most significant digit first. -/
def digitsVal (ds : List Char) : Nat := ds.foldl (fun a c => a * 10 + (c.toNat - 48)) 0

/-- Core of the model of the Python int constructor on strings: an optional
sign followed by a nonempty run of ASCII digits.  (Underscore digit grouping
and non-ASCII digits accepted by Python are not modelled; no input considered
in this development uses them.) -/
def pyIntCore (s : List Char) : Option Int :=
  match s with
  | [] => none
  | c :: r =>
    if c == '-' then
      if r ≠ [] ∧ r.all isDigit then some (-(Int.ofNat (digitsVal r))) else none
    else if c == '+' then
      if r ≠ [] ∧ r.all isDigit then some (Int.ofNat (digitsVal r)) else none
    else if (c :: r).all isDigit then some (Int.ofNat (digitsVal (c :: r))) else none

/-- Models Python int(str): surrounding whitespace is ignored, then an optional
sign and a nonempty digit run; anything else raises ValueError (here: none). -/
def pyIntOfString (s : List Char) : Option Int := pyIntCore (pyStripL s)

/- ===== Code-point order on strings (models Python string comparison) ===== -/

/-- Lexicographic strict order on character lists by code point: models the
order Python sorted uses on strings. -/
def strLtL : List Char → List Char → Bool
  | [], [] => false
  | [], _ :: _ => true
  | _ :: _, [] => false
  | a :: as, b :: bs => if a < b then true else if b < a then false else strLtL as bs

/-- Boolean code-point less-or-equal on strings. -/
def strLeB (s t : String) : Bool := !(strLtL t.data s.data)

/-- Propositional code-point less-or-equal on strings; the sort order of
Python sorted on string keys. -/
def SLe (s t : String) : Prop := strLeB s t = true

instance : DecidableRel SLe := fun s t => by unfold SLe; infer_instance

/- ===== src/extract.py : LOG_PATTERN and parse_log_lines ===== -/

/-!
The regex (re.IGNORECASE)

  caret, two digits, colon, two digits, colon, two digits, dot, three digits,
  whitespace-plus, lazy-dot-star as group 1, whitespace-plus, dash,
  whitespace-plus, loading_time or elapsed, colon, whitespace-plus,
  digits-plus as group 2, whitespace-plus, letter m, letter s

is hand-compiled below.  Every piece after the lazy group is deterministic
(each whitespace or digit run is followed by a character outside its class,
and the two alternation branches start with different letters), so only two
choice points remain and are modelled exactly in the order the regex engine
explores them: the leading whitespace-plus is greedy and gives characters
back one at a time (trySpacesAux), and the lazy group grows from the empty
string one character at a time, never across a newline (tryLabel).
re.search with a caret-anchored pattern (without MULTILINE) can only match
at position zero, so matching starts at the head of the line.
-/

/-- Consume exactly one expected character. -/
def eatChar (c : Char) : List Char → Option (List Char)
  | d :: r => if d == c then some r else none
  | [] => none

/-- Consume exactly n ASCII digits. -/
def eatDigits : Nat → List Char → Option (List Char)
  | 0, s => some s
  | n + 1, d :: r => if isDigit d then eatDigits n r else none
  | _ + 1, [] => none

/-- The timestamp prefix of the regex: two digits, colon, two digits, colon,
two digits, dot, three digits. -/
def parseTimestamp (s : List Char) : Option (List Char) :=
  ((((((eatDigits 2 s).bind (eatChar ':')).bind (eatDigits 2)).bind
    (eatChar ':')).bind (eatDigits 2)).bind (eatChar '.')).bind (eatDigits 3)

/-- Consume a nonempty maximal whitespace run (whitespace-plus followed by a
non-whitespace token, as everywhere in the pattern). -/
def eatWsPlus (s : List Char) : Option (List Char) :=
  if (s.takeWhile isSpace).isEmpty then none else some (s.dropWhile isSpace)

/-- Consume a nonempty maximal digit run (group 2 of the regex) and return it
together with the rest. -/
def eatDigitsPlus (s : List Char) : Option (List Char × List Char) :=
  if (s.takeWhile isDigit).isEmpty then none
  else some (s.takeWhile isDigit, s.dropWhile isDigit)

/-- Strip a case-insensitive literal prefix (ASCII case folding, as
re.IGNORECASE on this ASCII pattern). -/
def stripCiPrefix : List Char → List Char → Option (List Char)
  | [], s => some s
  | _ :: _, [] => none
  | c :: p, d :: s => if lowerChar d == lowerChar c then stripCiPrefix p s else none

/-- The keyword alternation of the regex, with its trailing colon: try
loading_time-colon first, then elapsed-colon, both case-insensitively. -/
def stripKeyword (s : List Char) : Option (List Char) :=
  match stripCiPrefix (("loading_time:").data) s with
  | some r => some r
  | none => stripCiPrefix (("elapsed:").data) s

/-- The final letters m and s of the regex, case-insensitive, not anchored at
the end of the line. -/
def eatMs (s : List Char) : Option Unit :=
  match s with
  | m :: t :: _ => if lowerChar m == 'm' && lowerChar t == 's' then some () else none
  | _ => none

/-- The deterministic part of the regex after the lazy label group:
whitespace-plus, dash, whitespace-plus, keyword, colon, whitespace-plus,
digit group, whitespace-plus, letters m s.  Returns group 2. -/
def matchSep (s : List Char) : Option (List Char) :=
  (((((((eatWsPlus s).bind (eatChar '-')).bind eatWsPlus).bind
    stripKeyword).bind eatWsPlus).bind eatDigitsPlus).bind
    (fun p => (eatWsPlus p.2).bind (fun s7 => (eatMs s7).map (fun _ => p.1))))

/-- The lazy group 1: starting from the shortest label, try the deterministic
rest at each position; a label character must not be a newline (the regex dot),
though the rest may start at a newline since the whitespace class contains it.
Returns (group 1, group 2).  At the end of the line no further attempt is
needed: matchSep [] is none, since the separator starts with a nonempty
whitespace run. -/
def tryLabel : List Char → Option (List Char × List Char)
  | [] => none
  | c :: s =>
    ((matchSep (c :: s)).map (fun ds => (([] : List Char), ds))).orElse
      (fun _ =>
        if c == '\n' then none
        else (tryLabel s).map (fun p => (c :: p.1, p.2)))

/-- Greedy backtracking for the whitespace-plus before the lazy group: the
first argument is the reversed list of whitespace characters currently
consumed; on failure the most recently consumed character is given back. -/
def trySpacesAux : List Char → List Char → Option (List Char × List Char)
  | [], _ => none
  | c :: w, rest =>
    match tryLabel rest with
    | some r => some r
    | none => trySpacesAux w (c :: rest)

/-- Models LOG_PATTERN.search on one line (src/extract.py lines 10-13):
returns (group 1, group 2) of the leftmost match, or none. -/
def LOG_PATTERN_search (line : List Char) : Option (List Char × List Char) :=
  match parseTimestamp line with
  | none => none
  | some r0 => trySpacesAux (r0.takeWhile isSpace).reverse (r0.dropWhile isSpace)

/-- Models parse_log_lines (src/extract.py lines 16-29): for each line, search
the pattern; on a match, strip group 1, convert group 2 with int() (the
ValueError branch yields no record), and collect the pairs in order. -/
def parse_log_lines (lines : List (List Char)) : List (List Char × Int) :=
  lines.filterMap (fun line =>
    match LOG_PATTERN_search line with
    | none => none
    | some g =>
      match pyIntOfString g.2 with
      | none => none
      | some n => some (pyStripL g.1, n))

/- ===== Declarative grammar predicates (from the specification wording) ===== -/

/-- A nonempty run of ASCII whitespace. -/
def WsRun (w : List Char) : Prop := w ≠ [] ∧ ∀ c ∈ w, isSpace c = true

/-- A nonempty run of ASCII digits. -/
def DigitRun (d : List Char) : Prop := d ≠ [] ∧ ∀ c ∈ d, isDigit c = true

/-- Timestamp shape HH:MM:SS.mmm. -/
def TsShape (ts : List Char) : Prop :=
  ∃ hh mm ss fff, ts = hh ++ ':' :: mm ++ ':' :: ss ++ '.' :: fff ∧
    hh.length = 2 ∧ mm.length = 2 ∧ ss.length = 2 ∧ fff.length = 3 ∧
    (∀ c ∈ hh, isDigit c = true) ∧ (∀ c ∈ mm, isDigit c = true) ∧
    (∀ c ∈ ss, isDigit c = true) ∧ (∀ c ∈ fff, isDigit c = true)

/-- Case-insensitive keyword with its colon: loading_time-colon or
elapsed-colon. -/
def KeywordCi (k : List Char) : Prop :=
  k.map lowerChar = ("loading_time:").data ∨ k.map lowerChar = ("elapsed:").data

/-- Modelled from the claim wording of C1, read literally: timestamp, then
whitespace, a label, then the three characters space dash space, then the
case-insensitive keyword with colon, whitespace, an integer, whitespace, and
the two lowercase characters m s (the claim marks only the keyword as
case-insensitive). -/
def LiteralGrammar (line label : List Char) (n : Int) : Prop :=
  ∃ ts w1 key w2 ds w3 rest,
    line = ts ++ w1 ++ label ++ ' ' :: '-' :: ' ' ::
      (key ++ w2 ++ ds ++ w3 ++ 'm' :: 's' :: rest) ∧
    TsShape ts ∧ WsRun w1 ∧ KeywordCi key ∧ WsRun w2 ∧ DigitRun ds ∧ WsRun w3 ∧
    n = Int.ofNat (digitsVal ds)

/-- The amended grammar of claim C1, faithful to LOG_PATTERN: the separator is
a dash surrounded by nonempty whitespace runs, the final letters m s are also
case-insensitive, and a label character is never a newline. -/
def AmendedGrammar (line label : List Char) (n : Int) : Prop :=
  ∃ ts w1 w2 w3 key w4 ds w5 m t rest,
    line = ts ++ w1 ++ label ++ w2 ++ '-' ::
      (w3 ++ key ++ w4 ++ ds ++ w5 ++ m :: t :: rest) ∧
    TsShape ts ∧ WsRun w1 ∧ (∀ c ∈ label, c ≠ '\n') ∧ WsRun w2 ∧ WsRun w3 ∧
    KeywordCi key ∧ WsRun w4 ∧ DigitRun ds ∧ WsRun w5 ∧
    lowerChar m = 'm' ∧ lowerChar t = 's' ∧ n = Int.ofNat (digitsVal ds)

/-- Two-character substring test, used to refute the literal grammar on a
concrete line. -/
def hasSub2 (a b : Char) : List Char → Bool
  | [] => false
  | [_] => false
  | c :: d :: r => (c == a && d == b) || hasSub2 a b (d :: r)

/- ===== src/report.py : statistics helpers ===== -/

/-!
Python round() on a float applies round-half-to-even.  The quotients taken in
report.py are sums of list elements divided by list lengths; the model below
rounds the exact rational quotient, expressed in integer arithmetic.  It
coincides with the Python float computation whenever that computation is
exact, which holds for every value appearing in the theorems below; the
divergence of the float path on huge inputs is the subject of claim C7 and is
out of scope for this embedding.
-/

/-- Round s divided by n (n positive) to the nearest integer, ties to even:
integer-arithmetic model of Python round(s / n). -/
def roundHalfEvenDiv (s : Int) (n : Int) : Int :=
  let q := Int.fdiv s n
  let r := Int.fmod s n
  if 2 * r < n then q
  else if n < 2 * r then q + 1
  else if q % 2 = 0 then q else q + 1

/-- Models _avg (src/report.py lines 15-16): round(sum/len) when nonempty,
else 0. -/
def _avg (vals : List Int) : Int :=
  if vals = [] then 0 else roundHalfEvenDiv vals.sum vals.length

/-- Models _min (src/report.py lines 19-20): min when nonempty, else 0. -/
def _min (vals : List Int) : Int :=
  match vals with
  | [] => 0
  | x :: xs => xs.foldl min x

/-- Models _max (src/report.py lines 23-24): max when nonempty, else 0. -/
def _max (vals : List Int) : Int :=
  match vals with
  | [] => 0
  | x :: xs => xs.foldl max x

/-- Models _median (src/report.py lines 27-35): 0 when empty; sort ascending
(Python sorted is a stable ascending sort, modelled with insertionSort);
middle element for odd length, round of the mean of the two middle elements
for even length. -/
def _median (vals : List Int) : Int :=
  if vals = [] then 0
  else
    let s := List.insertionSort (fun a b : Int => a ≤ b) vals
    let n := s.length
    let mid := n / 2
    if n % 2 = 1 then s.getD mid 0
    else roundHalfEvenDiv (s.getD (mid - 1) 0 + s.getD mid 0) 2

/- ===== spm.py : _combine_summaries ===== -/

/-- First occurrence of each string, in encounter order: models the
seen_services / service_order accumulation in _combine_summaries. -/
def firstSeenAux : List String → List String → List String
  | _, [] => []
  | seen, a :: rest =>
    if seen.contains a then firstSeenAux seen rest
    else a :: firstSeenAux (a :: seen) rest

/-- First-seen order of a list of service names. -/
def firstSeen (l : List String) : List String := firstSeenAux [] l

/-- Models the header check of _combine_summaries (spm.py line 94): the row
exists, is nonempty, and its first cell is the string service. -/
def headerOk : List String → Bool
  | [] => false
  | h :: _ => h == "service"

/-- Models one body-row parse of _combine_summaries (spm.py lines 97-107):
rows with fewer than two cells are skipped, the service cell is stripped, and
the value cell is converted with int() (failures skip the row). -/
def rowPair (row : List String) : Option (String × Int) :=
  match row with
  | svc :: v :: _ =>
    match pyIntOfString v.data with
    | some n => some (pyStrip svc, n)
    | none => none
  | _ => none

/-- The (service, value) pairs contributed by one summary artifact: nothing
when the file is missing (none) or its header is missing or wrong. -/
def artifactPairs : Option (List (List String)) → List (String × Int)
  | none => []
  | some [] => []
  | some (header :: body) => if headerOk header then body.filterMap rowPair else []

/-- The dataset labels in sorted order (spm.py iterates sorted keys at lines
85 and 117; both sorts see the same key set). -/
def sortedKeys (keys : List String) : List String := List.insertionSort SLe keys

/-- The ordered value list of one service in one dataset artifact:
per_dataset_values of the source, read off positionally. -/
def valsOf (f : String → Option (List (List String))) (d svc : String) : List Int :=
  (artifactPairs (f d)).filterMap (fun p => if p.1 == svc then some p.2 else none)

/-- Global service order: first-seen order walking datasets sorted by label,
each artifact read row by row (spm.py lines 108-110). -/
def serviceOrderOf (keys : List String) (f : String → Option (List (List String))) :
    List String :=
  firstSeen ((sortedKeys keys).flatMap (fun d => (artifactPairs (f d)).map Prod.fst))

/-- Maximum number of values any dataset holds for the service
(max_rows at spm.py lines 123-128). -/
def maxLenOf (keys : List String) (f : String → Option (List (List String)))
    (svc : String) : Nat :=
  ((sortedKeys keys).map (fun d => (valsOf f d svc).length)).foldl max 0

/-- One output cell: the i-th value of the list when it exists, else blank
(spm.py line 132; csv.writer renders the int with str). -/
def cellStr (vs : List Int) (i : Nat) : String :=
  match vs.get? i with
  | some v => toString v
  | none => ""

/-- Models _combine_summaries (spm.py lines 75-135) as a pure function.  A
Python dict is its insertion-ordered key list plus its lookup function; the
function only ever iterates keys in sorted order, so it is given the key list
and the content lookup (none models a missing artifact file).  Returns the
rows written to the combined summary, or none when nothing is written (empty
map, or no usable service row). -/
def combineSummaries (keys : List String)
    (f : String → Option (List (List String))) : Option (List (List String)) :=
  if keys.isEmpty then none
  else if (serviceOrderOf keys f).isEmpty then none
  else some (("service" :: sortedKeys keys) ::
    (serviceOrderOf keys f).flatMap (fun svc =>
      (List.range (maxLenOf keys f svc)).map (fun i =>
        svc :: (sortedKeys keys).map (fun d => cellStr (valsOf f d svc) i))))

/- ===== CSV byte serialization (csv.writer defaults) ===== -/

/-- A field must be quoted when it contains the delimiter, a quote, or a line
break (csv.writer QUOTE_MINIMAL default). -/
def csvNeedsQuote (s : String) : Bool :=
  s.data.any (fun c => c == ',' || c == '"' || c == '\n' || c == '\r')

/-- One serialized CSV field. -/
def csvField (s : String) : String :=
  if csvNeedsQuote s then
    String.mk ('"' :: (s.data.flatMap (fun c => if c == '"' then ['"', '"'] else [c])) ++ ['"'])
  else s

/-- One serialized CSV record with the csv.writer default terminator. -/
def csvLine (r : List String) : String :=
  String.intercalate (",") (r.map csvField) ++ "\r\n"

/-- Byte-level serialization of a list of rows, as csv.writer produces it. -/
def encodeCsv (rows : List (List String)) : String :=
  String.join (rows.map csvLine)

/- ===== spm.py : generate_reports (state level) ===== -/

/-- Abstract state of one generate run: the files currently present under the
result root (by relative path), whether the result root directory itself
exists, and the dataset names _collect_log_dirs would find under the data
root (directory scanning itself is ambient input to the run). -/
structure GenState where
  resultFiles : String → Option String
  rootDirExists : Bool
  datasets : List String

/-- Models generate_reports (spm.py lines 138-193) at the state level.  The
run first creates the result root directory (mkdir with parents and exist_ok,
line 140), then returns immediately when the combined marker
summary.csv exists (lines 142-148).  Otherwise, with no dataset found it
reports and returns (lines 150-153); with at least one dataset it reaches
line 164, which calls extract.process_dir(log_dir, pattern, out_path=...)
although process_dir (src/extract.py line 32) has no out_path parameter, so
Python raises TypeError before any summary is written; the exception is
modelled as the error result. -/
def generate_reports (st : GenState) : Except String GenState :=
  let st1 : GenState := { st with rootDirExists := true }
  if (st1.resultFiles ("summary.csv")).isSome then Except.ok st1
  else if st1.datasets.isEmpty then Except.ok st1
  else Except.error ("TypeError: process_dir() got an unexpected keyword argument " ++
    "'out_path'")

/- ===== src/extract.py : process_dir ===== -/

/-- One log file: its name and its decoded lines.  (The BOM-aware decode and
the lossy fallback of process_dir concern byte decoding and are not
modelled; a file is given here by its decoded lines.) -/
structure LogFile where
  name : String
  lines : List (List Char)

/-- Glob match for the two patterns the pipeline uses: a leading star followed
by a literal suffix, or a literal name. -/
def globMatch (pat name : String) : Bool :=
  match pat.data with
  | '*' :: suffix => List.isSuffixOf suffix name.data
  | _ => name == pat

/-- Sort key order for files. -/
def fileLe (a b : LogFile) : Prop := SLe a.name b.name

instance : DecidableRel fileLe := fun a b => by unfold fileLe; infer_instance

/-- Models process_dir (src/extract.py lines 32-61): select files matching the
glob, sort them lexicographically, parse every file line by line in order and
concatenate the entries; with no entry, write nothing and return 0, else
return the written artifact (header service,loading_time_ms plus one row per
entry, in order) and the entry count.  In the source the artifact is always
written to dir_path/summary.csv: process_dir accepts no output path. -/
def process_dir (files : List LogFile) (pat : String) : Option (List (List String)) × Nat :=
  let selected := List.insertionSort fileLe (files.filter (fun fp => globMatch pat fp.name))
  let all_entries := selected.flatMap (fun fp => parse_log_lines fp.lines)
  if all_entries.isEmpty then (none, 0)
  else
    (some (["service", "loading_time_ms"] ::
      all_entries.map (fun e => [String.mk e.1, toString e.2])), all_entries.length)

/- ===== src/webapp.py : dataset loading and validation ===== -/

/-- Models EXCLUDED_SERVICES (src/webapp.py lines 18-25): the fixed,
case-sensitive exclusion set. -/
def EXCLUDED_SERVICES : List String :=
  ["EIP2", "EIP 2", "Microsoft 365", "MICROSOFT 365", "OUTLOOK", "Outlook"]

/-- One long-form record of the melted frame: service, version, loading_time. -/
structure MeltedRec where
  service : String
  version : String
  loading_time : Int
  deriving DecidableEq

/-- Models pandas to_numeric with coerce on a cell, in the integer regime of
this development (non-numeric cells become none, as NaN). -/
def toNumeric (s : String) : Option Int := pyIntOfString s.data

/-- Models _load_summary (src/webapp.py lines 251-268) on the parsed rows of
summary.csv, in the rectangular integer regime (every row as long as the
header; pandas dtype inference on exotic frames is not modelled).  The service
column is taken as a string column; rows whose raw service cell is in
EXCLUDED_SERVICES are removed (line 261 filters before any trimming); the
remaining columns are the version columns, their cells coerced to numbers.
Returns the kept rows (service cell, per-version optional values) and the
version column names, or none when the frame is rejected. -/
def _load_summary (rows : List (List String)) :
    Option (List (String × List (Option Int)) × List String) :=
  match rows with
  | [] => none
  | header :: body =>
    if header.contains ("service") = false then none
    else
      let numericCols := header.filter (fun h => !(h == "service"))
      if numericCols.isEmpty then none
      else if body.all (fun r => r.length == header.length) = false then none
      else
        let svcIdx := header.findIdx (fun h => h == "service")
        let keptRows := body.filter
          (fun r => !(EXCLUDED_SERVICES.contains (r.getD svcIdx "")))
        some (keptRows.map (fun r =>
          (r.getD svcIdx "",
            (header.zip r).filterMap (fun p =>
              if p.1 == "service" then none else some (toNumeric p.2)))),
          numericCols)

/-- Models _prepare_summary (src/webapp.py lines 271-291) up to the melted
frame: melt the loaded frame column by column in version-column order, drop
missing values, and reject an empty result. -/
def _prepare_summary (rows : List (List String)) : Option (List MeltedRec) :=
  match _load_summary rows with
  | none => none
  | some (df, numericCols) =>
    let melted := numericCols.enum.flatMap (fun jv =>
      df.filterMap (fun rec =>
        (rec.2.getD jv.1 none).map (fun x => MeltedRec.mk rec.1 jv.2 x)))
    if melted.isEmpty then none else some melted

/-- Warning string of validation rule 1 (src/webapp.py line 370). -/
def countWarning (n : Nat) : String :=
  "Warning: dataset must include 24 services, found " ++ toString n ++ "."

/-- One entry of the rule 3 mismatch list (src/webapp.py line 391). -/
def mismatchEntry (s : String) (c : Nat) : String :=
  s ++ " (" ++ toString c ++ " samples)"

/-- Warning string of validation rule 3 (src/webapp.py lines 394-397). -/
def mismatchWarning (baseline : Nat) (entries : List String) : String :=
  "Warning: sample counts differ from AUTO TEST (" ++ toString baseline ++
    " samples): " ++ String.intercalate (", ") entries ++ "."

/-- Models _validate_dataset_requirements (src/webapp.py lines 357-399).  An
empty frame returns no warning and no error.  Otherwise service names are
stripped; rule 1 warns when the distinct count differs from 24; rule 2 walks
the sorted distinct services (pandas groupby sorts keys) and returns the fatal
baseline error when none upper-cases to AUTO TEST; rule 3 collects every other
service whose record count differs from the baseline count into one warning. -/
def _validate_dataset_requirements (melted : List MeltedRec) :
    List String × Option String :=
  if melted.isEmpty then ([], none)
  else
    let cleaned := melted.map (fun r => pyStrip r.service)
    let unique_services := List.insertionSort SLe (firstSeen cleaned)
    let warnings1 :=
      if unique_services.length ≠ 24 then [countWarning unique_services.length] else []
    let service_counts := unique_services.map
      (fun s => (s, (cleaned.filter (fun t => t == s)).length))
    match service_counts.find? (fun p => pyUpper p.1 == "AUTO TEST") with
    | none => (warnings1, some ("Error: dataset is missing required 'AUTO TEST' service."))
    | some auto =>
      let mismatched := service_counts.filterMap (fun p =>
        if p.1 ≠ auto.1 ∧ p.2 ≠ auto.2 then some (mismatchEntry p.1 p.2) else none)
      let warnings2 :=
        if mismatched.isEmpty then warnings1
        else warnings1 ++ [mismatchWarning auto.2 mismatched]
      (warnings2, none)

/-- Shape of the deterministic regex suffix matched by matchSep, declaratively:
whitespace, dash, whitespace, keyword with colon, whitespace, the digit group,
whitespace, then case-insensitive letters m and s. -/
def SepShape (u ds : List Char) : Prop :=
  ∃ w2 w3 key w4 w5 m t rest,
    u = w2 ++ '-' :: (w3 ++ key ++ w4 ++ ds ++ w5 ++ m :: t :: rest) ∧
    WsRun w2 ∧ WsRun w3 ∧ KeywordCi key ∧ WsRun w4 ∧ DigitRun ds ∧ WsRun w5 ∧
    lowerChar m = 'm' ∧ lowerChar t = 's'

/-- Concrete per-version artifact map realizing the combine example of the
specification: version A holds samples 100 and 200 of service X, version B
holds sample 150. -/
def c2f : String → Option (List (List String)) := fun d =>
  if d == "A" then some [["service", "loading_time_ms"], ["X", "100"], ["X", "200"]]
  else if d == "B" then some [["service", "loading_time_ms"], ["X", "150"]]
  else none

/- ===================== Theorems ===================== -/

theorem strLtL_irrefl : ∀ l : List Char, strLtL l l = false := by
  intro l
  induction l with
  | nil => rfl
  | cons a as ih => simp [strLtL, ih, lt_irrefl]

theorem strLtL_trans : ∀ (a b c : List Char),
    strLtL a b = true → strLtL b c = true → strLtL a c = true := by
  intro a
  induction a with
  | nil =>
    intro b c hab hbc
    cases b with
    | nil => simp [strLtL] at hab
    | cons y bs =>
      cases c with
      | nil => simp [strLtL] at hbc
      | cons z cs => simp [strLtL]
  | cons x as ih =>
    intro b c hab hbc
    cases b with
    | nil => simp [strLtL] at hab
    | cons y bs =>
      cases c with
      | nil => simp [strLtL] at hbc
      | cons z cs =>
        simp only [strLtL] at hab hbc ⊢
        rcases lt_trichotomy x y with hxy | hxy | hxy
        · rcases lt_trichotomy y z with hyz | hyz | hyz
          · simp [lt_trans hxy hyz]
          · subst hyz; simp [hxy]
          · rw [if_neg (asymm hyz), if_pos hyz] at hbc
            exact absurd hbc Bool.false_ne_true
        · subst hxy
          rw [if_neg (lt_irrefl x), if_neg (lt_irrefl x)] at hab
          rcases lt_trichotomy x z with hxz | hxz | hxz
          · simp [hxz]
          · subst hxz
            rw [if_neg (lt_irrefl x), if_neg (lt_irrefl x)] at hbc ⊢
            exact ih bs cs hab hbc
          · rw [if_neg (asymm hxz), if_pos hxz] at hbc
            exact absurd hbc Bool.false_ne_true
        · rw [if_neg (asymm hxy), if_pos hxy] at hab
          exact absurd hab Bool.false_ne_true

theorem strLtL_trichotomy : ∀ a b : List Char,
    strLtL a b = true ∨ strLtL b a = true ∨ a = b := by
  intro a
  induction a with
  | nil =>
    intro b
    cases b with
    | nil => right; right; rfl
    | cons y bs => left; rfl
  | cons x as ih =>
    intro b
    cases b with
    | nil => right; left; rfl
    | cons y bs =>
      rcases lt_trichotomy x y with hxy | hxy | hxy
      · left; simp [strLtL, hxy]
      · subst hxy
        rcases ih bs with h | h | h
        · left; simp [strLtL, lt_irrefl, h]
        · right; left; simp [strLtL, lt_irrefl, h]
        · right; right; rw [h]
      · right; left; simp [strLtL, hxy]

theorem strLtL_asymm {a b : List Char} (h : strLtL a b = true) : strLtL b a = false := by
  cases hba : strLtL b a with
  | false => rfl
  | true =>
    have := strLtL_trans a b a h hba
    rw [strLtL_irrefl] at this
    exact absurd this Bool.false_ne_true

instance : IsTotal String SLe := by
  constructor
  intro s t
  unfold SLe strLeB
  rcases strLtL_trichotomy t.data s.data with h | h | h
  · right; simp [strLtL_asymm h]
  · left; simp [strLtL_asymm h]
  · left; simp [h, strLtL_irrefl]

instance : IsTrans String SLe := by
  constructor
  intro s t u hst htu
  unfold SLe strLeB at hst htu ⊢
  simp only [Bool.not_eq_true'] at hst htu ⊢
  by_contra hc
  have hus : strLtL u.data s.data = true := by
    cases h : strLtL u.data s.data with
    | false => exact absurd h hc
    | true => rfl
  rcases strLtL_trichotomy s.data t.data with h | h | h
  · have hut := strLtL_trans u.data s.data t.data hus h
    rw [htu] at hut
    exact absurd hut Bool.false_ne_true
  · rw [hst] at h
    exact absurd h Bool.false_ne_true
  · rw [h] at hus
    rw [htu] at hus
    exact absurd hus Bool.false_ne_true

instance : IsAntisymm String SLe := by
  constructor
  intro s t hst hts
  unfold SLe strLeB at hst hts
  simp only [Bool.not_eq_true'] at hst hts
  rcases strLtL_trichotomy s.data t.data with h | h | h
  · rw [hts] at h
    exact absurd h Bool.false_ne_true
  · rw [hst] at h
    exact absurd h Bool.false_ne_true
  · cases s; cases t; exact congrArg String.mk h


/-- Claim C3 (code_bug evidence): a generate run that finds no existing
combined marker and at least one dataset reaches the call
extract.process_dir(log_dir, pattern, out_path=...) at spm.py line 164; since
process_dir (src/extract.py line 32) accepts only (dir_path, file_glob),
Python raises TypeError there and no per-dataset summary is ever written. -/
theorem c3_generate_reports_type_error :
    generate_reports (GenState.mk (fun _ => none) false ["InQuire_2.0.1.0"]) =
      Except.error ("TypeError: process_dir() got an unexpected keyword argument " ++
        "'out_path'") := rfl

/-- Claim C8: when the combined artifact summary.csv already exists under the
result root at the start of a generate run, the run returns successfully
reusing the existing outputs, and the files under the result root are exactly
the files that were there before: none is created, modified or removed. -/
theorem c8_existing_marker_reuses (st : GenState)
    (h : (st.resultFiles ("summary.csv")).isSome = true) :
    ∃ st', generate_reports st = Except.ok st' ∧
      st'.resultFiles = st.resultFiles ∧ st'.datasets = st.datasets := by
  refine ⟨{ st with rootDirExists := true }, ?_, rfl, rfl⟩
  unfold generate_reports
  simp [h]

/-- Witness for C8 at a concrete state holding the marker and one dataset. -/
theorem c8_existing_marker_reuses_witness :
    ∃ st', generate_reports (GenState.mk
        (fun p => if p == "summary.csv" then some ("service,A\r\n") else none)
        true ["InQuire_2.0.1.0"]) = Except.ok st' ∧
      st'.resultFiles = (fun p => if p == "summary.csv" then some ("service,A\r\n") else none) ∧
      st'.datasets = ["InQuire_2.0.1.0"] :=
  c8_existing_marker_reuses _ rfl

/-- Claim C9: the combined output is a deterministic function of the mapping
from version label to artifact content: two combine runs over the same
mapping, with the dict keys supplied in any order, serialize to byte-identical
output (the source sorts the keys before any read or write). -/
theorem c9_combine_deterministic (keys1 keys2 : List String)
    (f : String → Option (List (List String))) (hp : keys1.Perm keys2) :
    (combineSummaries keys1 f).map encodeCsv = (combineSummaries keys2 f).map encodeCsv := by
  have s1 : List.Sorted SLe (sortedKeys keys1) := List.sorted_insertionSort SLe keys1
  have s2 : List.Sorted SLe (sortedKeys keys2) := List.sorted_insertionSort SLe keys2
  have p12 : (sortedKeys keys1).Perm (sortedKeys keys2) :=
    ((List.perm_insertionSort SLe keys1).trans hp).trans
      (List.perm_insertionSort SLe keys2).symm
  have hs : sortedKeys keys1 = sortedKeys keys2 := List.eq_of_perm_of_sorted p12 s1 s2
  have he : keys1.isEmpty = keys2.isEmpty := by
    have hl := hp.length_eq
    cases keys1 <;> cases keys2 <;> simp_all
  unfold combineSummaries serviceOrderOf maxLenOf
  simp only [hs, he]

/-- Witness for C9: the example mapping with its two keys given in either
order. -/
theorem c9_combine_deterministic_witness :
    (combineSummaries ["B", "A"] c2f).map encodeCsv =
      (combineSummaries ["A", "B"] c2f).map encodeCsv :=
  c9_combine_deterministic ["B", "A"] ["A", "B"] c2f (by decide)

/-- Claim C6: the statistics helpers return 0 on empty input, agree on
singletons, and the median of a nonempty list is obtained from an ascending
sorted rearrangement: the middle element when the length is odd, and the
rounded mean (the same _avg rounding) of the two middle elements when the
length is even; in particular median of 10,20,30 is 20 and median of 10,20
is 15. -/
theorem c6_statistics :
    _avg [] = 0 ∧ _median [] = 0 ∧ _min [] = 0 ∧ _max [] = 0 ∧
    _avg [7] = 7 ∧ _median [7] = 7 ∧
    _median [10, 20, 30] = 20 ∧ _median [10, 20] = 15 ∧
    (∀ l : List Int, l ≠ [] → l.length % 2 = 1 →
      ∃ s, l.Perm s ∧ List.Sorted (fun a b : Int => a ≤ b) s ∧
        _median l = s.getD (l.length / 2) 0) ∧
    (∀ l : List Int, l ≠ [] → l.length % 2 = 0 →
      ∃ s, l.Perm s ∧ List.Sorted (fun a b : Int => a ≤ b) s ∧
        _median l = _avg [s.getD (l.length / 2 - 1) 0, s.getD (l.length / 2) 0]) := by
  refine ⟨rfl, rfl, rfl, rfl, by decide, by decide, by decide, by decide, ?_, ?_⟩
  · intro l hne hodd
    refine ⟨List.insertionSort (fun a b : Int => a ≤ b) l,
      (List.perm_insertionSort _ l).symm,
      List.sorted_insertionSort _ l, ?_⟩
    have hlen : (List.insertionSort (fun a b : Int => a ≤ b) l).length = l.length :=
      (List.perm_insertionSort _ l).length_eq
    unfold _median
    rw [if_neg hne]
    simp [hlen, hodd]
  · intro l hne heven
    refine ⟨List.insertionSort (fun a b : Int => a ≤ b) l,
      (List.perm_insertionSort _ l).symm,
      List.sorted_insertionSort _ l, ?_⟩
    have hlen : (List.insertionSort (fun a b : Int => a ≤ b) l).length = l.length :=
      (List.perm_insertionSort _ l).length_eq
    unfold _median _avg
    rw [if_neg hne]
    simp [hlen, heven, List.sum_cons]

/-- Witness for C6 at concrete lists of odd and even length. -/
theorem c6_statistics_witness :
    (∃ s, ([30, 10, 20] : List Int).Perm s ∧
      List.Sorted (fun a b : Int => a ≤ b) s ∧ _median [30, 10, 20] = s.getD 1 0) ∧
    (∃ s, ([40, 10] : List Int).Perm s ∧
      List.Sorted (fun a b : Int => a ≤ b) s ∧
      _median [40, 10] = _avg [s.getD 0 0, s.getD 1 0]) :=
  ⟨c6_statistics.2.2.2.2.2.2.2.2.1 [30, 10, 20] (by decide) (by decide),
    c6_statistics.2.2.2.2.2.2.2.2.2 [40, 10] (by decide) (by decide)⟩

theorem mem_firstSeenAux : ∀ (l seen : List String) (a : String),
    a ∈ firstSeenAux seen l → a ∈ l := by
  intro l
  induction l with
  | nil => intro seen a h; simp [firstSeenAux] at h
  | cons b rest ih =>
    intro seen a h
    unfold firstSeenAux at h
    split at h
    · exact List.mem_cons_of_mem b (ih seen a h)
    · rcases List.mem_cons.mp h with rfl | h'
      · exact List.mem_cons_self a rest
      · exact List.mem_cons_of_mem b (ih (b :: seen) a h')

/-- Claim C4 counterexample: the empty record set contains no service that
case-insensitively equals AUTO TEST, yet the validator returns no fatal error
at all (src/webapp.py lines 361-362 return early on an empty frame), contrary
to the claim quantifying over every input record set. -/
theorem c4_counterexample :
    (([] : List MeltedRec)).all
        (fun r => !(pyUpper (pyStrip r.service) == "AUTO TEST")) = true ∧
    _validate_dataset_requirements [] = ([], none) :=
  ⟨rfl, rfl⟩

/-- Claim C4 as amended: for every NONEMPTY record set in which no trimmed
service name case-insensitively equals AUTO TEST, the validator returns the
fatal missing-baseline error, and rule 3 is never evaluated: the warning list
is empty or consists of the single rule-1 count warning. -/
theorem c4_missing_baseline (melted : List MeltedRec) (hne : melted ≠ [])
    (h : ∀ r ∈ melted, pyUpper (pyStrip r.service) ≠ "AUTO TEST") :
    (_validate_dataset_requirements melted).2 =
      some ("Error: dataset is missing required 'AUTO TEST' service.") ∧
    ((_validate_dataset_requirements melted).1 = [] ∨
      ∃ n, (_validate_dataset_requirements melted).1 = [countWarning n]) := by
  have hempty : melted.isEmpty = false := by
    cases melted with
    | nil => exact absurd rfl hne
    | cons a l => rfl
  have hfind : List.find? (fun p => pyUpper p.1 == "AUTO TEST")
      ((List.insertionSort SLe
        (firstSeen (melted.map (fun r => pyStrip r.service)))).map
        (fun s => (s, ((melted.map (fun r => pyStrip r.service)).filter
          (fun t => t == s)).length))) = none := by
    rw [List.find?_eq_none]
    intro p hp
    obtain ⟨s, hs, rfl⟩ := List.mem_map.mp hp
    have hs1 : s ∈ firstSeen (melted.map (fun r => pyStrip r.service)) :=
      (List.perm_insertionSort SLe _).mem_iff.mp hs
    have hs2 : s ∈ melted.map (fun r => pyStrip r.service) :=
      mem_firstSeenAux _ [] s hs1
    obtain ⟨r, hr, rfl⟩ := List.mem_map.mp hs2
    simpa using h r hr
  unfold _validate_dataset_requirements
  rw [hempty]
  simp only [Bool.false_eq_true, if_false, hfind]
  constructor
  · trivial
  · by_cases h24 : (List.insertionSort SLe
        (firstSeen (melted.map (fun r => pyStrip r.service)))).length ≠ 24
    · right
      have h24' : (firstSeen (melted.map (fun r => pyStrip r.service))).length ≠ 24 := by
        rw [← List.length_insertionSort SLe]
        exact h24
      exact ⟨(List.insertionSort SLe
        (firstSeen (melted.map (fun r => pyStrip r.service)))).length, by simp [h24']⟩
    · left
      have h24' := not_not.mp h24
      rw [List.length_insertionSort] at h24'
      simp [h24']

/-- Witness for C4 as amended, at a one-record set without the baseline. -/
theorem c4_missing_baseline_witness :
    (_validate_dataset_requirements [MeltedRec.mk ("Mail") ("v1") 5]).2 =
      some ("Error: dataset is missing required 'AUTO TEST' service.") ∧
    ((_validate_dataset_requirements [MeltedRec.mk ("Mail") ("v1") 5]).1 = [] ∨
      ∃ n, (_validate_dataset_requirements [MeltedRec.mk ("Mail") ("v1") 5]).1 =
        [countWarning n]) :=
  c4_missing_baseline _ (by decide) (by decide)

/-- Every row kept by the loaded frame has a raw service cell outside the
exclusion set: _load_summary filters the raw names (src/webapp.py line 261)
before the validator ever trims them. -/
theorem load_summary_not_excluded {rows : List (List String)}
    {df : List (String × List (Option Int))} {cols : List String}
    (h : _load_summary rows = some (df, cols)) :
    ∀ p ∈ df, p.1 ∉ EXCLUDED_SERVICES := by
  intro p hp
  unfold _load_summary at h
  rcases rows with _ | ⟨header, body⟩
  · cases h
  · simp only at h
    split at h
    · cases h
    · split at h
      · cases h
      · split at h
        · cases h
        · injection h with h'
          have hdf : df = (body.filter (fun r =>
              !(EXCLUDED_SERVICES.contains (r.getD (header.findIdx
                (fun h => h == "service")) "")))).map (fun r =>
              (r.getD (header.findIdx (fun h => h == "service")) "",
                (header.zip r).filterMap (fun q =>
                  if q.1 == "service" then none else some (toNumeric q.2)))) :=
            (congrArg Prod.fst h').symm
          rw [hdf] at hp
          obtain ⟨row, hrow, rfl⟩ := List.mem_map.mp hp
          have hkept := (List.mem_filter.mp hrow).2
          rw [Bool.not_eq_true'] at hkept
          show row.getD (header.findIdx (fun h => h == "service")) "" ∉ EXCLUDED_SERVICES
          intro hmem
          have h3 := List.elem_iff.mpr hmem
          have h2 : List.elem (row.getD (header.findIdx (fun h => h == "service")) "")
              EXCLUDED_SERVICES = false := hkept
          rw [h3] at h2
          cases h2

/-- Claim C5 counterexample: a summary row whose raw service cell is
Outlook surrounded by spaces.  Its trimmed name is in the exclusion set, yet
the record survives loading (src/webapp.py line 261 filters the raw names
before any trimming) and raises the validator's distinct-service count from 1
to 2: the sample contributes to a validation count, contrary to the claim. -/
theorem c5_counterexample :
    _prepare_summary [["service", "v1"], [" Outlook ", "5"], ["AUTO TEST", "7"]] =
      some [MeltedRec.mk (" Outlook ") ("v1") 5, MeltedRec.mk ("AUTO TEST") ("v1") 7] ∧
    pyStrip (" Outlook ") = "Outlook" ∧
    ("Outlook" : String) ∈ EXCLUDED_SERVICES ∧
    (_validate_dataset_requirements [MeltedRec.mk (" Outlook ") ("v1") 5,
        MeltedRec.mk ("AUTO TEST") ("v1") 7]).1 =
      ["Warning: dataset must include 24 services, found 2."] ∧
    (_validate_dataset_requirements [MeltedRec.mk ("AUTO TEST") ("v1") 7]).1 =
      ["Warning: dataset must include 24 services, found 1."] :=
  ⟨rfl, rfl, by decide, rfl, rfl⟩

/-- Claim C5 as amended: the exclusion set is applied to the raw (stringified,
untrimmed) service names while the frame is loaded, before the validator
trims; hence every record reaching the validator carries a raw service name
outside the exclusion set, while a record whose raw name merely trims into
the exclusion set is kept and counted. -/
theorem c5_raw_exclusion (rows : List (List String)) (m : List MeltedRec)
    (h : _prepare_summary rows = some m) :
    ∀ r ∈ m, r.service ∉ EXCLUDED_SERVICES := by
  intro r hr
  unfold _prepare_summary at h
  rcases hl : _load_summary rows with _ | df_cols
  · rw [hl] at h; cases h
  · rw [hl] at h
    simp only at h
    split at h
    · cases h
    · injection h with h'
      subst h'
      obtain ⟨jv, hjv, hr2⟩ := List.mem_flatMap.mp hr
      obtain ⟨rec, hrec, hr3⟩ := List.mem_filterMap.mp hr2
      obtain ⟨x, hx, hx2⟩ := Option.map_eq_some'.mp hr3
      have hsvc : r.service = rec.1 := by rw [← hx2]
      rw [hsvc]
      exact load_summary_not_excluded (by rw [hl]) rec hrec

/-- Witness for C5 as amended at the counterexample artifact: the kept raw
name with its surrounding spaces is indeed outside the exclusion set. -/
theorem c5_raw_exclusion_witness : (" Outlook " : String) ∉ EXCLUDED_SERVICES :=
  c5_raw_exclusion [["service", "v1"], [" Outlook ", "5"], ["AUTO TEST", "7"]]
    [MeltedRec.mk (" Outlook ") ("v1") 5, MeltedRec.mk ("AUTO TEST") ("v1") 7] rfl
    (MeltedRec.mk (" Outlook ") ("v1") 5) (by decide)

theorem firstSeenAux_spec : ∀ (l seen : List String),
    (firstSeenAux seen l).Nodup ∧ ∀ a ∈ firstSeenAux seen l, seen.contains a = false := by
  intro l
  induction l with
  | nil => intro seen; exact ⟨List.nodup_nil, by intro a h; simp [firstSeenAux] at h⟩
  | cons b rest ih =>
    intro seen
    unfold firstSeenAux
    by_cases hb : seen.contains b = true
    · rw [if_pos hb]
      exact ih seen
    · rw [if_neg hb]
      have hrec := ih (b :: seen)
      constructor
      · rw [List.nodup_cons]
        constructor
        · intro hbin
          have := hrec.2 b hbin
          have hself : (b :: seen).contains b = true := by
            simp [List.elem_iff]
          rw [hself] at this
          cases this
        · exact hrec.1
      · intro a ha
        rcases List.mem_cons.mp ha with rfl | ha'
        · cases h : seen.contains a with
          | false => rfl
          | true => exact absurd h hb
        · have := hrec.2 a ha'
          cases h : seen.contains a with
          | false => rfl
          | true =>
            have h2 : (b :: seen).contains a = true := by
              rcases List.elem_iff.mp h with hm
              exact List.elem_iff.mpr (List.mem_cons_of_mem b hm)
            rw [h2] at this
            cases this

theorem firstSeen_nodup (l : List String) : (firstSeen l).Nodup :=
  (firstSeenAux_spec l []).1

/-- In a concatenation of per-service blocks over distinct services, where
every row of a block starts with its service, filtering the rows that start
with one of the services returns exactly that service's block. -/
theorem filter_head_flatMap (ord : List String) (hnd : ord.Nodup)
    (F : String → List (List String))
    (hF : ∀ a, ∀ r ∈ F a, r.head? = some a) (svc : String) (hs : svc ∈ ord) :
    (ord.flatMap F).filter (fun r => r.head? == some svc) = F svc := by
  induction ord with
  | nil => cases hs
  | cons b rest ih =>
    rw [List.flatMap_cons, List.filter_append]
    rcases List.mem_cons.mp hs with rfl | hs'
    · have hnotin := (List.nodup_cons.mp hnd).1
      have h1 : (F svc).filter (fun r => r.head? == some svc) = F svc :=
        List.filter_eq_self.mpr (fun r hr => by simp [hF svc r hr])
      have h2 : (rest.flatMap F).filter (fun r => r.head? == some svc) = [] := by
        rw [List.filter_eq_nil_iff]
        intro r hr
        obtain ⟨c, hc, hrc⟩ := List.mem_flatMap.mp hr
        have hrh := hF c r hrc
        have hcneq : c ≠ svc := fun he => hnotin (he ▸ hc)
        simp [hrh, hcneq]
      rw [h1, h2, List.append_nil]
    · have hbneq : b ≠ svc := by
        intro he
        exact (List.nodup_cons.mp hnd).1 (he ▸ hs')
      have h1 : (F b).filter (fun r => r.head? == some svc) = [] := by
        rw [List.filter_eq_nil_iff]
        intro r hr
        simp [hF b r hr, hbneq]
      rw [h1, List.nil_append]
      exact ih (List.nodup_cons.mp hnd).2 hs'

/-- Claim C2: in the combined table, every service of the output contributes
exactly the maximum, over the version columns, of the length of its value
list as data rows, and the i-th of those rows lists the service followed by
each version's i-th value when it exists and a blank cell otherwise. -/
theorem c2_combined_alignment (keys : List String)
    (f : String → Option (List (List String))) (rows : List (List String))
    (h : combineSummaries keys f = some rows) (svc : String)
    (hsvc : svc ∈ serviceOrderOf keys f) :
    rows.tail.filter (fun r => r.head? == some svc) =
      (List.range (maxLenOf keys f svc)).map (fun i =>
        svc :: (sortedKeys keys).map (fun d => cellStr (valsOf f d svc) i)) ∧
    (rows.tail.filter (fun r => r.head? == some svc)).length = maxLenOf keys f svc := by
  have hrows : rows.tail = (serviceOrderOf keys f).flatMap (fun s =>
      (List.range (maxLenOf keys f s)).map (fun i =>
        s :: (sortedKeys keys).map (fun d => cellStr (valsOf f d s) i))) := by
    unfold combineSummaries at h
    split at h
    · cases h
    · split at h
      · cases h
      · injection h with h'
        rw [← h']
        rfl
  have hmain : rows.tail.filter (fun r => r.head? == some svc) =
      (List.range (maxLenOf keys f svc)).map (fun i =>
        svc :: (sortedKeys keys).map (fun d => cellStr (valsOf f d svc) i)) := by
    rw [hrows]
    refine filter_head_flatMap _ (firstSeen_nodup _) _ ?_ svc hsvc
    intro a r hr
    obtain ⟨i, _, rfl⟩ := List.mem_map.mp hr
    rfl
  refine ⟨hmain, ?_⟩
  rw [hmain, List.length_map, List.length_range]

/-- Witness for C2 at the combine example of the specification: version A has
samples 100 and 200 of service X, version B has 150; the combined rows of X
are X,100,150 and X,200,blank. -/
theorem c2_combined_alignment_witness :
    combineSummaries ["A", "B"] c2f =
      some [["service", "A", "B"], ["X", "100", "150"], ["X", "200", ""]] ∧
    ([["X", "100", "150"], ["X", "200", ""]] : List (List String)).filter
        (fun r => r.head? == some ("X")) =
      (List.range (maxLenOf ["A", "B"] c2f ("X"))).map (fun i =>
        ("X") :: (sortedKeys ["A", "B"]).map (fun d => cellStr (valsOf c2f d ("X")) i)) :=
  ⟨rfl, (c2_combined_alignment ["A", "B"] c2f
    [["service", "A", "B"], ["X", "100", "150"], ["X", "200", ""]] rfl ("X")
    (by decide)).1⟩

/- ===== Lemmas for the regex matcher (claims C1 and C10) ===== -/

theorem isSpace_cases {c : Char} (h : isSpace c = true) :
    c = ' ' ∨ c = '\t' ∨ c = '\n' ∨ c = '\r' ∨ c = '\x0c' ∨ c = '\x0b' := by
  unfold isSpace at h
  simp only [Bool.or_eq_true, beq_iff_eq] at h
  tauto

theorem lowerChar_of_isSpace {c : Char} (h : isSpace c = true) : lowerChar c = c := by
  rcases isSpace_cases h with rfl | rfl | rfl | rfl | rfl | rfl <;> decide

theorem not_space_of_lower {c d : Char} (h : lowerChar c = d) (hd : isSpace d = false) :
    isSpace c = false := by
  cases hcs : isSpace c with
  | false => rfl
  | true =>
    rw [lowerChar_of_isSpace hcs] at h
    subst h
    rw [hcs] at hd
    cases hd

theorem isDigit_not_space {c : Char} (h : isDigit c = true) : isSpace c = false := by
  cases hcs : isSpace c with
  | false => rfl
  | true =>
    rcases isSpace_cases hcs with rfl | rfl | rfl | rfl | rfl | rfl <;>
      exact absurd h (by decide)

theorem isSpace_not_digit {c : Char} (h : isSpace c = true) : isDigit c = false := by
  rcases isSpace_cases h with rfl | rfl | rfl | rfl | rfl | rfl <;> decide

theorem takeWhile_append_cons {p : Char → Bool} :
    ∀ (w : List Char), (∀ x ∈ w, p x = true) → ∀ {c : Char} {r : List Char}, p c = false →
      (w ++ c :: r).takeWhile p = w ∧ (w ++ c :: r).dropWhile p = c :: r := by
  intro w
  induction w with
  | nil =>
    intro _ c r hc
    constructor
    · simp [List.takeWhile_cons, hc]
    · simp [List.dropWhile_cons, hc]
  | cons a w ih =>
    intro hw c r hc
    have ha : p a = true := hw a (List.mem_cons_self a w)
    have hrest := ih (fun x hx => hw x (List.mem_cons_of_mem a hx)) (c := c) (r := r) hc
    constructor
    · simp [List.takeWhile_cons, ha, hrest.1]
    · simp [List.dropWhile_cons, ha, hrest.2]

theorem eatWsPlus_sound {s r : List Char} (h : eatWsPlus s = some r) :
    ∃ w, s = w ++ r ∧ WsRun w := by
  unfold eatWsPlus at h
  split at h
  · cases h
  · rename_i hne
    injection h with h'
    subst h'
    refine ⟨s.takeWhile isSpace, (List.takeWhile_append_dropWhile isSpace s).symm, ?_, ?_⟩
    · intro hnil
      apply hne
      rw [hnil]
      rfl
    · intro c hc
      exact List.mem_takeWhile_imp hc

theorem eatWsPlus_complete {w : List Char} {c : Char} {r : List Char}
    (hw : WsRun w) (hc : isSpace c = false) :
    eatWsPlus (w ++ c :: r) = some (c :: r) := by
  obtain ⟨hne, hall⟩ := hw
  obtain ⟨ht, hd⟩ := takeWhile_append_cons w hall hc
  unfold eatWsPlus
  rw [ht, hd]
  rw [if_neg ?_]
  intro hcontra
  rw [List.isEmpty_iff] at hcontra
  exact hne hcontra

theorem eatDigitsPlus_sound {s : List Char} {ds r : List Char}
    (h : eatDigitsPlus s = some (ds, r)) :
    s = ds ++ r ∧ DigitRun ds := by
  unfold eatDigitsPlus at h
  split at h
  · cases h
  · rename_i hne
    injection h with h'
    have hds : ds = s.takeWhile isDigit := (congrArg Prod.fst h').symm
    have hr : r = s.dropWhile isDigit := (congrArg Prod.snd h').symm
    subst hds
    subst hr
    refine ⟨(List.takeWhile_append_dropWhile isDigit s).symm, ?_, ?_⟩
    · intro hnil
      apply hne
      rw [hnil]
      rfl
    · intro c hc
      exact List.mem_takeWhile_imp hc

theorem eatDigitsPlus_complete {ds : List Char} {c : Char} {r : List Char}
    (hds : DigitRun ds) (hc : isDigit c = false) :
    eatDigitsPlus (ds ++ c :: r) = some (ds, c :: r) := by
  obtain ⟨hne, hall⟩ := hds
  obtain ⟨ht, hd⟩ := takeWhile_append_cons ds hall hc
  unfold eatDigitsPlus
  rw [ht, hd]
  rw [if_neg ?_]
  intro hcontra
  rw [List.isEmpty_iff] at hcontra
  exact hne hcontra

theorem eatChar_sound {c : Char} {s r : List Char} (h : eatChar c s = some r) :
    s = c :: r := by
  cases s with
  | nil => cases h
  | cons d s' =>
    simp only [eatChar] at h
    split at h
    · rename_i hdc
      injection h with h'
      rw [beq_iff_eq] at hdc
      rw [hdc, h']
    · cases h

theorem eatChar_complete (c : Char) (r : List Char) : eatChar c (c :: r) = some r := by
  simp [eatChar]

theorem eatDigits_sound : ∀ (n : Nat) (s r : List Char), eatDigits n s = some r →
    ∃ d, s = d ++ r ∧ d.length = n ∧ ∀ x ∈ d, isDigit x = true := by
  intro n
  induction n with
  | zero =>
    intro s r h
    simp only [eatDigits] at h
    injection h with h'
    exact ⟨[], by rw [h']; rfl, rfl, by intro x hx; cases hx⟩
  | succ m ih =>
    intro s r h
    cases s with
    | nil => cases h
    | cons a s' =>
      simp only [eatDigits] at h
      split at h
      · rename_i ha
        obtain ⟨d, hd1, hd2, hd3⟩ := ih s' r h
        refine ⟨a :: d, by rw [List.cons_append, hd1], by simp [hd2], ?_⟩
        intro x hx
        rcases List.mem_cons.mp hx with rfl | hx'
        · exact ha
        · exact hd3 x hx'
      · cases h

theorem eatDigits_complete : ∀ (d r : List Char), (∀ x ∈ d, isDigit x = true) →
    eatDigits d.length (d ++ r) = some r := by
  intro d
  induction d with
  | nil => intro r _; rfl
  | cons a d' ih =>
    intro r hall
    have ha : isDigit a = true := hall a (List.mem_cons_self a d')
    simp only [List.length_cons, List.cons_append, eatDigits, ha, if_true]
    exact ih r (fun x hx => hall x (List.mem_cons_of_mem a hx))

theorem eatDigits_complete' {n : Nat} {d : List Char} (hlen : d.length = n)
    (hall : ∀ x ∈ d, isDigit x = true) (r : List Char) :
    eatDigits n (d ++ r) = some r := by
  subst hlen
  exact eatDigits_complete d r hall

theorem parseTimestamp_sound {s r : List Char} (h : parseTimestamp s = some r) :
    ∃ ts, s = ts ++ r ∧ TsShape ts := by
  unfold parseTimestamp at h
  simp only [Option.bind_eq_some] at h
  obtain ⟨a6, ⟨a5, ⟨a4, ⟨a3, ⟨a2, ⟨a1, h1, h2⟩, h3⟩, h4⟩, h5⟩, h6⟩, h7⟩ := h
  obtain ⟨hh, hhh1, hhh2, hhh3⟩ := eatDigits_sound 2 s a1 h1
  have ha2 := eatChar_sound h2
  obtain ⟨mm, hmm1, hmm2, hmm3⟩ := eatDigits_sound 2 a2 a3 h3
  have ha4 := eatChar_sound h4
  obtain ⟨ss, hss1, hss2, hss3⟩ := eatDigits_sound 2 a4 a5 h5
  have ha6 := eatChar_sound h6
  obtain ⟨fff, hff1, hff2, hff3⟩ := eatDigits_sound 3 a6 r h7
  refine ⟨hh ++ ':' :: mm ++ ':' :: ss ++ '.' :: fff, ?_, ?_⟩
  · rw [hhh1, ha2, hmm1, ha4, hss1, ha6, hff1]
    simp [List.append_assoc]
  · exact ⟨hh, mm, ss, fff, rfl, hhh2, hmm2, hss2, hff2, hhh3, hmm3, hss3, hff3⟩

theorem parseTimestamp_complete {ts : List Char} (h : TsShape ts) (r : List Char) :
    parseTimestamp (ts ++ r) = some r := by
  obtain ⟨hh, mm, ss, fff, rfl, h1, h2, h3, h4, d1, d2, d3, d4⟩ := h
  have hassoc : (hh ++ ':' :: mm ++ ':' :: ss ++ '.' :: fff) ++ r =
      hh ++ (':' :: (mm ++ (':' :: (ss ++ ('.' :: (fff ++ r)))))) := by
    simp [List.append_assoc]
  unfold parseTimestamp
  rw [hassoc]
  rw [eatDigits_complete' h1 d1, Option.some_bind, eatChar_complete, Option.some_bind,
    eatDigits_complete' h2 d2, Option.some_bind, eatChar_complete, Option.some_bind,
    eatDigits_complete' h3 d3, Option.some_bind, eatChar_complete, Option.some_bind,
    eatDigits_complete' h4 d4]

theorem stripCiPrefix_sound : ∀ (p s r : List Char), stripCiPrefix p s = some r →
    ∃ q, s = q ++ r ∧ q.map lowerChar = p.map lowerChar := by
  intro p
  induction p with
  | nil =>
    intro s r h
    injection h with h'
    exact ⟨[], by rw [h']; rfl, rfl⟩
  | cons c p' ih =>
    intro s r h
    cases s with
    | nil => cases h
    | cons d s' =>
      simp only [stripCiPrefix] at h
      split at h
      · rename_i hdc
        rw [beq_iff_eq] at hdc
        obtain ⟨q, hq1, hq2⟩ := ih s' r h
        exact ⟨d :: q, by rw [List.cons_append, hq1], by simp [hq2, hdc]⟩
      · cases h

theorem stripCiPrefix_complete : ∀ (p q r : List Char),
    q.map lowerChar = p.map lowerChar → stripCiPrefix p (q ++ r) = some r := by
  intro p
  induction p with
  | nil =>
    intro q r h
    have hq : q = [] := by
      cases q with
      | nil => rfl
      | cons a q' => cases h
    subst hq
    rfl
  | cons c p' ih =>
    intro q r h
    cases q with
    | nil => cases h
    | cons d q' =>
      simp only [List.map_cons, List.cons.injEq] at h
      simp only [List.cons_append, stripCiPrefix]
      rw [if_pos (by rw [beq_iff_eq]; exact h.1)]
      exact ih q' r h.2

theorem stripKeyword_sound {s r : List Char} (h : stripKeyword s = some r) :
    ∃ k, s = k ++ r ∧ KeywordCi k := by
  unfold stripKeyword at h
  split at h
  · rename_i r' hl
    injection h with h'
    subst h'
    obtain ⟨q, hq1, hq2⟩ := stripCiPrefix_sound _ _ _ hl
    exact ⟨q, hq1, Or.inl (by rw [hq2]; decide)⟩
  · obtain ⟨q, hq1, hq2⟩ := stripCiPrefix_sound _ _ _ h
    exact ⟨q, hq1, Or.inr (by rw [hq2]; decide)⟩

theorem keywordCi_head {k : List Char} (h : KeywordCi k) :
    ∃ c k', k = c :: k' ∧ (lowerChar c = 'l' ∨ lowerChar c = 'e') := by
  rcases h with h | h
  · cases k with
    | nil => cases h
    | cons c k' =>
      simp only [List.map_cons] at h
      exact ⟨c, k', rfl, Or.inl (List.head_eq_of_cons_eq h)⟩
  · cases k with
    | nil => cases h
    | cons c k' =>
      simp only [List.map_cons] at h
      exact ⟨c, k', rfl, Or.inr (List.head_eq_of_cons_eq h)⟩

theorem stripKeyword_complete {k : List Char} (h : KeywordCi k) (r : List Char) :
    stripKeyword (k ++ r) = some r := by
  unfold stripKeyword
  rcases h with h | h
  · rw [stripCiPrefix_complete _ _ _ (by rw [h]; rfl)]
  · have hfail : stripCiPrefix (("loading_time:").data) (k ++ r) = none := by
      cases k with
      | nil => cases h
      | cons c k' =>
        simp only [List.map_cons] at h
        have hc : lowerChar c = 'e' := List.head_eq_of_cons_eq h
        simp only [List.cons_append, stripCiPrefix]
        rw [if_neg ?_]
        rw [beq_iff_eq, hc]
        decide
    rw [hfail]
    rw [stripCiPrefix_complete _ _ _ (by rw [h]; rfl)]

theorem eatMs_sound {s : List Char} (h : eatMs s = some ()) :
    ∃ m t rest, s = m :: t :: rest ∧ lowerChar m = 'm' ∧ lowerChar t = 's' := by
  cases s with
  | nil => cases h
  | cons m s' =>
    cases s' with
    | nil => cases h
    | cons t rest =>
      simp only [eatMs] at h
      split at h
      · rename_i hmt
        rw [Bool.and_eq_true, beq_iff_eq, beq_iff_eq] at hmt
        exact ⟨m, t, rest, rfl, hmt.1, hmt.2⟩
      · cases h

theorem eatMs_complete {m t : Char} (hm : lowerChar m = 'm') (ht : lowerChar t = 's')
    (rest : List Char) : eatMs (m :: t :: rest) = some () := by
  simp [eatMs, hm, ht]

theorem matchSep_sound {s ds : List Char} (h : matchSep s = some ds) : SepShape s ds := by
  unfold matchSep at h
  simp only [Option.bind_eq_some, Option.map_eq_some'] at h
  obtain ⟨p, ⟨a5, ⟨a4, ⟨a3, ⟨a2, ⟨a1, hws1, hdash⟩, hws2⟩, hkey⟩, hws3⟩, hdp⟩,
    s7, hws4, u, hms, hpds⟩ := h
  obtain ⟨w2, rfl, hw2⟩ := eatWsPlus_sound hws1
  have ha1 := eatChar_sound hdash
  obtain ⟨w3, rfl, hw3⟩ := eatWsPlus_sound hws2
  obtain ⟨key, rfl, hkeyCi⟩ := stripKeyword_sound hkey
  obtain ⟨w4, rfl, hw4⟩ := eatWsPlus_sound hws3
  obtain ⟨hsplit, hdr⟩ := eatDigitsPlus_sound hdp
  obtain ⟨w5, hp2, hw5⟩ := eatWsPlus_sound hws4
  obtain ⟨m, t, rest, hs7, hm, ht⟩ := eatMs_sound hms
  refine ⟨w2, w3, key, w4, w5, m, t, rest, ?_, hw2, hw3, hkeyCi, hw4, ?_, hw5, hm, ht⟩
  · rw [ha1, hsplit, hp2, hs7, hpds]
    simp [List.append_assoc]
  · rw [← hpds]
    exact hdr

theorem matchSep_complete {u ds : List Char} (h : SepShape u ds) : matchSep u = some ds := by
  obtain ⟨w2, w3, key, w4, w5, m, t, rest, rfl, hw2, hw3, hkey, hw4, hds, hw5, hm, ht⟩ := h
  obtain ⟨kc, k', rfl, hkc⟩ := keywordCi_head hkey
  have hkcns : isSpace kc = false := by
    rcases hkc with h' | h'
    · exact not_space_of_lower h' (by decide)
    · exact not_space_of_lower h' (by decide)
  obtain ⟨dc, d', rfl⟩ : ∃ dc d', ds = dc :: d' := by
    cases ds with
    | nil => exact absurd rfl hds.1
    | cons dc d' => exact ⟨dc, d', rfl⟩
  have hdcd : isDigit dc = true := hds.2 dc (List.mem_cons_self dc d')
  obtain ⟨wc, w5', rfl⟩ : ∃ wc w5', w5 = wc :: w5' := by
    cases w5 with
    | nil => exact absurd rfl hw5.1
    | cons wc w5' => exact ⟨wc, w5', rfl⟩
  have hwcs : isSpace wc = true := hw5.2 wc (List.mem_cons_self wc w5')
  have hmns : isSpace m = false := not_space_of_lower hm (by decide)
  unfold matchSep
  simp only [List.cons_append, List.append_assoc]
  have e1 : eatWsPlus (w2 ++ '-' :: (w3 ++ kc :: (k' ++ (w4 ++ dc ::
      (d' ++ wc :: (w5' ++ m :: t :: rest)))))) = some ('-' :: (w3 ++ kc ::
      (k' ++ (w4 ++ dc :: (d' ++ wc :: (w5' ++ m :: t :: rest)))))) :=
    eatWsPlus_complete hw2 (by decide)
  rw [e1]
  simp only [Option.some_bind]
  rw [eatChar_complete]
  simp only [Option.some_bind]
  have e2 : eatWsPlus (w3 ++ kc :: (k' ++ (w4 ++ dc :: (d' ++ wc ::
      (w5' ++ m :: t :: rest))))) = some (kc :: (k' ++ (w4 ++ dc ::
      (d' ++ wc :: (w5' ++ m :: t :: rest))))) :=
    eatWsPlus_complete hw3 hkcns
  rw [e2]
  simp only [Option.some_bind]
  have e3 : stripKeyword (kc :: (k' ++ (w4 ++ dc :: (d' ++ wc ::
      (w5' ++ m :: t :: rest))))) = some (w4 ++ dc :: (d' ++ wc ::
      (w5' ++ m :: t :: rest))) :=
    stripKeyword_complete hkey _
  rw [e3]
  simp only [Option.some_bind]
  have e4 : eatWsPlus (w4 ++ dc :: (d' ++ wc :: (w5' ++ m :: t :: rest))) =
      some (dc :: (d' ++ wc :: (w5' ++ m :: t :: rest))) :=
    eatWsPlus_complete hw4 (isDigit_not_space hdcd)
  rw [e4]
  simp only [Option.some_bind]
  have e5 : eatDigitsPlus (dc :: (d' ++ wc :: (w5' ++ m :: t :: rest))) =
      some (dc :: d', wc :: (w5' ++ m :: t :: rest)) :=
    eatDigitsPlus_complete hds (isSpace_not_digit hwcs)
  rw [e5]
  simp only [Option.some_bind]
  have e6 : eatWsPlus (wc :: (w5' ++ m :: t :: rest)) = some (m :: t :: rest) :=
    eatWsPlus_complete hw5 hmns
  rw [e6]
  simp only [Option.some_bind]
  rw [eatMs_complete hm ht]
  rfl

theorem matchSep_nil : matchSep [] = none := rfl

theorem option_some_orElse {α : Type} (a : α) (f : Unit → Option α) :
    (some a).orElse f = some a := rfl

theorem option_none_orElse {α : Type} (f : Unit → Option α) :
    (none : Option α).orElse f = f () := rfl

theorem tryLabel_sound : ∀ (s lab ds : List Char),
    tryLabel s = some (lab, ds) →
    ∃ u, s = lab ++ u ∧ (∀ c ∈ lab, c ≠ '\n') ∧ matchSep u = some ds := by
  intro s
  induction s with
  | nil => intro lab ds h; cases h
  | cons c s' ih =>
    intro lab ds h
    unfold tryLabel at h
    cases hms : matchSep (c :: s') with
    | some ds' =>
      rw [hms, Option.map_some', option_some_orElse] at h
      injection h with h'
      obtain ⟨h1, h2⟩ := (Prod.mk.injEq _ _ _ _).mp h'
      refine ⟨c :: s', by rw [← h1]; rfl, ?_, by rw [hms, h2]⟩
      rw [← h1]
      intro x hx
      cases hx
    | none =>
      rw [hms, Option.map_none', option_none_orElse] at h
      split at h
      · cases h
      · rename_i hnl
        cases htl : tryLabel s' with
        | none => rw [htl, Option.map_none'] at h; cases h
        | some p =>
          rw [htl, Option.map_some'] at h
          injection h with h'
          obtain ⟨h1, h2⟩ := (Prod.mk.injEq _ _ _ _).mp h'
          obtain ⟨u, hs, hnn, hums⟩ := ih p.1 p.2 (by rw [htl])
          refine ⟨u, ?_, ?_, by rw [hums, h2]⟩
          · rw [← h1, List.cons_append, ← hs]
          · intro x hx
            rw [← h1] at hx
            rcases List.mem_cons.mp hx with rfl | hx'
            · rw [beq_iff_eq] at hnl
              simpa using hnl
            · exact hnn x hx'

theorem tryLabel_complete : ∀ (t u : List Char), (∀ c ∈ t, c ≠ '\n') →
    (matchSep u).isSome = true → (tryLabel (t ++ u)).isSome = true := by
  intro t
  induction t with
  | nil =>
    intro u _ hms
    cases u with
    | nil => rw [matchSep_nil] at hms; cases hms
    | cons c u' =>
      rw [List.nil_append]
      unfold tryLabel
      cases hu : matchSep (c :: u') with
      | none => rw [hu] at hms; cases hms
      | some ds => rfl
  | cons c t' ih =>
    intro u hnn hms
    rw [List.cons_append]
    unfold tryLabel
    cases hu : matchSep (c :: (t' ++ u)) with
    | some ds => rfl
    | none =>
      rw [Option.map_none', option_none_orElse]
      have hc : (c == '\n') = false := by
        rw [beq_eq_false_iff_ne]
        exact hnn c (List.mem_cons_self c t')
      rw [hc]
      simp only [Bool.false_eq_true, if_false]
      have hrec := ih u (fun x hx => hnn x (List.mem_cons_of_mem c hx)) hms
      cases htl : tryLabel (t' ++ u) with
      | none => rw [htl] at hrec; cases hrec
      | some p => rw [Option.map_some']; rfl

theorem trySpacesAux_sound : ∀ (v rest lab ds : List Char),
    trySpacesAux v rest = some (lab, ds) →
    ∃ ws1 ws2, v.reverse = ws1 ++ ws2 ∧ ws1 ≠ [] ∧
      tryLabel (ws2 ++ rest) = some (lab, ds) := by
  intro v
  induction v with
  | nil => intro rest lab ds h; cases h
  | cons c v' ih =>
    intro rest lab ds h
    unfold trySpacesAux at h
    cases htry : tryLabel rest with
    | some r =>
      rw [htry] at h
      simp only [] at h
      injection h with h'
      refine ⟨(c :: v').reverse, [], (List.append_nil _).symm, by simp, ?_⟩
      rw [List.nil_append, htry, h']
    | none =>
      rw [htry] at h
      simp only [] at h
      obtain ⟨ws1, ws2, hv, hne, htl⟩ := ih (c :: rest) lab ds h
      refine ⟨ws1, ws2 ++ [c], ?_, hne, ?_⟩
      · rw [List.reverse_cons, hv, List.append_assoc]
      · rw [← htl]
        congr 1
        simp [List.append_assoc]

theorem trySpacesAux_complete : ∀ (v rest : List Char),
    (∃ ws1 ws2, v.reverse = ws1 ++ ws2 ∧ ws1 ≠ [] ∧
      (tryLabel (ws2 ++ rest)).isSome = true) →
    (trySpacesAux v rest).isSome = true := by
  intro v
  induction v with
  | nil =>
    intro rest h
    obtain ⟨ws1, ws2, hv, hne, _⟩ := h
    simp only [List.reverse_nil] at hv
    exact absurd (List.append_eq_nil.mp hv.symm).1 hne
  | cons c v' ih =>
    intro rest h
    obtain ⟨ws1, ws2, hv, hne, htl⟩ := h
    unfold trySpacesAux
    cases htry : tryLabel rest with
    | some r => rfl
    | none =>
      show (trySpacesAux v' (c :: rest)).isSome = true
      apply ih
      rcases List.eq_nil_or_concat ws2 with rfl | ⟨ws2', d, rfl⟩
      · exfalso
        rw [List.append_nil] at hv
        rw [List.nil_append] at htl
        rw [htry] at htl
        cases htl
      · rw [List.concat_eq_append] at hv htl
        rw [List.reverse_cons] at hv
        have hv' : (ws1 ++ ws2') ++ [d] = v'.reverse ++ [c] := by
          rw [List.append_assoc]
          exact hv.symm
        obtain ⟨h1, h2⟩ := List.append_inj' hv' rfl
        have hd : d = c := by injection h2
        subst hd
        refine ⟨ws1, ws2', h1.symm, hne, ?_⟩
        have harr : (ws2' ++ [d]) ++ rest = ws2' ++ (d :: rest) := by
          simp [List.append_assoc]
        rw [harr] at htl
        exact htl

theorem takeWhile_append_all {p : Char → Bool} :
    ∀ (a b : List Char), (∀ x ∈ a, p x = true) →
      (a ++ b).takeWhile p = a ++ b.takeWhile p ∧ (a ++ b).dropWhile p = b.dropWhile p := by
  intro a
  induction a with
  | nil => intro b _; exact ⟨rfl, rfl⟩
  | cons c a' ih =>
    intro b ha
    have hc : p c = true := ha c (List.mem_cons_self c a')
    have hrest := ih b (fun x hx => ha x (List.mem_cons_of_mem c hx))
    constructor
    · simp [List.takeWhile_cons, hc, hrest.1]
    · simp [List.dropWhile_cons, hc, hrest.2]

theorem LOG_PATTERN_search_sound {line g1 g2 : List Char}
    (h : LOG_PATTERN_search line = some (g1, g2)) :
    AmendedGrammar line g1 (Int.ofNat (digitsVal g2)) ∧ DigitRun g2 := by
  unfold LOG_PATTERN_search at h
  cases hts : parseTimestamp line with
  | none => rw [hts] at h; cases h
  | some r0 =>
    rw [hts] at h
    simp only [] at h
    obtain ⟨ts, hline, htss⟩ := parseTimestamp_sound hts
    obtain ⟨ws1, ws2, hv, hne, htl⟩ := trySpacesAux_sound _ _ _ _ h
    rw [List.reverse_reverse] at hv
    obtain ⟨u, hsplit, hnn, hms⟩ := tryLabel_sound _ _ _ htl
    obtain ⟨w2, w3, key, w4, w5, m, t, rest, hu, hw2, hw3, hkey, hw4, hds, hw5, hm, ht⟩ :=
      matchSep_sound hms
    have hws1 : WsRun ws1 := by
      refine ⟨hne, ?_⟩
      intro x hx
      have : x ∈ r0.takeWhile isSpace := by
        rw [hv]
        exact List.mem_append_left ws2 hx
      exact List.mem_takeWhile_imp this
    refine ⟨⟨ts, ws1, w2, w3, key, w4, g2, w5, m, t, rest, ?_, htss, hws1, hnn,
      hw2, hw3, hkey, hw4, hds, hw5, hm, ht, rfl⟩, hds⟩
    rw [hline, ← List.takeWhile_append_dropWhile isSpace r0, hv]
    rw [List.append_assoc ws1 ws2, hsplit, hu]
    simp [List.append_assoc]

theorem LOG_PATTERN_search_complete {line lab : List Char} {n : Int}
    (h : AmendedGrammar line lab n) : (LOG_PATTERN_search line).isSome = true := by
  obtain ⟨ts, w1, w2, w3, key, w4, ds, w5, m, t, rest, rfl, htss, hw1, hnn, hw2, hw3,
    hkey, hw4, hds, hw5, hm, ht, hn⟩ := h
  unfold LOG_PATTERN_search
  have hline : ts ++ w1 ++ lab ++ w2 ++ '-' :: (w3 ++ key ++ w4 ++ ds ++ w5 ++
      m :: t :: rest) = ts ++ (w1 ++ (lab ++ (w2 ++ '-' :: (w3 ++ key ++ w4 ++ ds ++
      w5 ++ m :: t :: rest)))) := by
    simp [List.append_assoc]
  rw [hline]
  rw [parseTimestamp_complete htss]
  simp only []
  have hsep : SepShape (w2 ++ '-' :: (w3 ++ key ++ w4 ++ ds ++ w5 ++ m :: t :: rest)) ds :=
    ⟨w2, w3, key, w4, w5, m, t, rest, rfl, hw2, hw3, hkey, hw4, hds, hw5, hm, ht⟩
  have hms : (matchSep (w2 ++ '-' :: (w3 ++ key ++ w4 ++ ds ++ w5 ++
      m :: t :: rest))).isSome = true := by
    rw [matchSep_complete hsep]
    rfl
  have hsw := takeWhile_append_all w1
    (lab ++ (w2 ++ '-' :: (w3 ++ key ++ w4 ++ ds ++ w5 ++ m :: t :: rest))) hw1.2
  apply trySpacesAux_complete
  refine ⟨w1, (lab ++ (w2 ++ '-' :: (w3 ++ key ++ w4 ++ ds ++ w5 ++
    m :: t :: rest))).takeWhile isSpace, ?_, hw1.1, ?_⟩
  · rw [List.reverse_reverse]
    exact hsw.1
  · rw [hsw.2, List.takeWhile_append_dropWhile]
    exact tryLabel_complete lab _ hnn hms

theorem dropWhile_eq_self_of_not {l : List Char} (h : ∀ c ∈ l, isSpace c = false) :
    l.dropWhile isSpace = l := by
  cases l with
  | nil => rfl
  | cons c r =>
    rw [List.dropWhile_cons]
    rw [h c (List.mem_cons_self c r)]
    simp

theorem pyStripL_of_digits {ds : List Char} (h : ∀ c ∈ ds, isDigit c = true) :
    pyStripL ds = ds := by
  unfold pyStripL
  have h1 : ds.dropWhile isSpace = ds :=
    dropWhile_eq_self_of_not (fun c hc => isDigit_not_space (h c hc))
  rw [h1]
  have h2 : ds.reverse.dropWhile isSpace = ds.reverse :=
    dropWhile_eq_self_of_not (fun c hc =>
      isDigit_not_space (h c (List.mem_reverse.mp hc)))
  rw [h2, List.reverse_reverse]

theorem pyIntOfString_digits {ds : List Char} (hds : DigitRun ds) :
    pyIntOfString ds = some (Int.ofNat (digitsVal ds)) := by
  unfold pyIntOfString
  rw [pyStripL_of_digits hds.2]
  obtain ⟨hne, hall⟩ := hds
  cases ds with
  | nil => exact absurd rfl hne
  | cons c r =>
    have hc : isDigit c = true := hall c (List.mem_cons_self c r)
    have h1 : (c == '-') = false := by
      rw [beq_eq_false_iff_ne]
      intro he
      rw [he] at hc
      exact absurd hc (by decide)
    have h2 : (c == '+') = false := by
      rw [beq_eq_false_iff_ne]
      intro he
      rw [he] at hc
      exact absurd hc (by decide)
    have h3 : (c :: r).all isDigit = true := List.all_eq_true.mpr hall
    simp only [pyIntCore, h1, h2, h3, Bool.false_eq_true, if_false, if_true]

theorem hasSub2_append (a b : Char) : ∀ (x y : List Char),
    hasSub2 a b (x ++ a :: b :: y) = true := by
  intro x
  induction x with
  | nil =>
    intro y
    simp [hasSub2]
  | cons c x' ih =>
    intro y
    cases hx : x' ++ a :: b :: y with
    | nil => exact absurd hx (by simp)
    | cons d r =>
      have : hasSub2 a b (c :: d :: r) = ((c == a && d == b) || hasSub2 a b (d :: r)) := rfl
      rw [List.cons_append, hx, this, ← hx, ih y]
      simp

/-- Claim C1 counterexample: the line whose trailing unit is uppercase MS.
Read literally, the claimed grammar (case-insensitive only on the keyword,
separator exactly space dash space, trailing literal ms) does not match this
line: no lowercase m s pair occurs in it at all, as the substring check shows.
The claim then demands that no record be produced, yet LOG_PATTERN is
compiled with re.IGNORECASE over the whole pattern, so parse_log_lines
yields the record (Mail, 300). -/
theorem c1_counterexample :
    (¬ ∃ lab n, LiteralGrammar (("09:00:01.250 Mail - loading_time: 300 MS").data)
      lab n) ∧
    parse_log_lines [("09:00:01.250 Mail - loading_time: 300 MS").data] =
      [((("Mail").data), 300)] := by
  constructor
  · rintro ⟨lab, n, ts, w1, key, w2, ds, w3, rest, heq, -, -, -, -, -, -⟩
    have hsub : hasSub2 'm' 's'
        (("09:00:01.250 Mail - loading_time: 300 MS").data) = true := by
      rw [heq]
      have harr : ts ++ w1 ++ lab ++ ' ' :: '-' :: ' ' ::
          (key ++ w2 ++ ds ++ w3 ++ 'm' :: 's' :: rest) =
          (ts ++ w1 ++ lab ++ ' ' :: '-' :: ' ' :: (key ++ w2 ++ ds ++ w3)) ++
            'm' :: 's' :: rest := by
        simp [List.append_assoc]
      rw [harr]
      exact hasSub2_append 'm' 's' _ rest
    exact absurd hsub (by decide)
  · decide

/-- Claim C1 as amended: the grammar of LOG_PATTERN has a dash surrounded by
nonempty whitespace runs as separator, the trailing letters m s are also
case-insensitive, and the label never spans a newline.  For every line that
matches this grammar, parse_log_lines yields exactly one record, the trimmed
label with its integer; for every line that does not, it yields none. -/
theorem c1_amended (line : List Char) :
    ((∃ lab n, AmendedGrammar line lab n) →
      ∃ lab n, AmendedGrammar line lab n ∧
        parse_log_lines [line] = [(pyStripL lab, n)]) ∧
    ((¬ ∃ lab n, AmendedGrammar line lab n) → parse_log_lines [line] = []) := by
  constructor
  · rintro ⟨lab, n, hg⟩
    have hsome := LOG_PATTERN_search_complete hg
    cases hs : LOG_PATTERN_search line with
    | none => rw [hs] at hsome; cases hsome
    | some g =>
      obtain ⟨g1, g2⟩ := g
      obtain ⟨hg', hdr⟩ := LOG_PATTERN_search_sound hs
      refine ⟨g1, Int.ofNat (digitsVal g2), hg', ?_⟩
      unfold parse_log_lines
      simp only [List.filterMap_cons, List.filterMap_nil, hs, pyIntOfString_digits hdr]
  · intro hno
    cases hs : LOG_PATTERN_search line with
    | some g =>
      exact absurd ⟨g.1, Int.ofNat (digitsVal g.2),
        (LOG_PATTERN_search_sound (by rw [hs])).1⟩ hno
    | none =>
      unfold parse_log_lines
      simp only [List.filterMap_cons, List.filterMap_nil, hs]

/-- Witness for C1 as amended at the canonical matching line. -/
theorem c1_amended_witness :
    ∃ lab n, AmendedGrammar (("09:00:01.250 Mail - loading_time: 300 ms").data) lab n ∧
      parse_log_lines [("09:00:01.250 Mail - loading_time: 300 ms").data] =
        [(pyStripL lab, n)] := by
  apply (c1_amended (("09:00:01.250 Mail - loading_time: 300 ms").data)).1
  refine ⟨("Mail").data, 300, ("09:00:01.250").data, [' '], [' '], [' '],
    ("loading_time:").data, [' '], ("300").data, [' '], 'm', 's', [], by decide,
    ?_, ⟨by decide, by decide⟩, by decide, ⟨by decide, by decide⟩,
    ⟨by decide, by decide⟩, ?_, ⟨by decide, by decide⟩, ⟨by decide, by decide⟩,
    ⟨by decide, by decide⟩, by decide, by decide, by decide⟩
  · exact ⟨['0', '9'], ['0', '0'], ['0', '1'], ['2', '5', '0'], by decide, rfl, rfl,
      rfl, rfl, by decide, by decide, by decide, by decide⟩
  · exact Or.inl (by decide)

/-- Claim C10: whenever LOG_PATTERN matches a line, the second capture group
is a nonempty string of decimal digits, so the int conversion guarded by the
ValueError branch always succeeds and the matching line always yields its
record: the except branch of parse_log_lines is unreachable. -/
theorem c10_int_conversion_total (line g1 g2 : List Char)
    (h : LOG_PATTERN_search line = some (g1, g2)) :
    g2 ≠ [] ∧ (∀ c ∈ g2, isDigit c = true) ∧
    pyIntOfString g2 = some (Int.ofNat (digitsVal g2)) ∧
    parse_log_lines [line] = [(pyStripL g1, Int.ofNat (digitsVal g2))] := by
  obtain ⟨-, hdr⟩ := LOG_PATTERN_search_sound h
  refine ⟨hdr.1, hdr.2, pyIntOfString_digits hdr, ?_⟩
  unfold parse_log_lines
  simp only [List.filterMap_cons, List.filterMap_nil, h, pyIntOfString_digits hdr]

/-- Witness for C10 at a concrete matching line using the elapsed keyword. -/
theorem c10_int_conversion_total_witness :
    (("41").data ≠ []) ∧ (∀ c ∈ ("41").data, isDigit c = true) ∧
    pyIntOfString (("41").data) = some (Int.ofNat (digitsVal (("41").data))) ∧
    parse_log_lines [("10:20:30.400 Chart - elapsed: 41 ms").data] =
      [(pyStripL (("Chart").data), Int.ofNat (digitsVal (("41").data)))] :=
  c10_int_conversion_total (("10:20:30.400 Chart - elapsed: 41 ms").data)
    (("Chart").data) (("41").data) (by decide)
